import Mathlib

/-!
# Verification of the wifi-experiment-controller host-orchestration core

Shallow embedding of the host registry (`src/hosts.rs`), the command fan-out
primitive (`src/utils.rs`), the capture session (`src/capture.rs`) and the
monitor / association-discovery protocol (`src/monitor.rs`), together with
proofs of the spec's claims about them.

Conventions of the embedding:
* Rust `String`/`&str` values are Lean `String`s; where character-level
  processing matters (line splitting, hex parsing, path manipulation) the
  functions work on `List Char` and are wrapped at the `String` boundary.
* Byte sequences (`Vec<u8>`, process stdout) are `List Nat`.
* Fallible Rust code returning `anyhow::Result<T>` is embedded as
  `Except String T`; the error string is the message produced at the point
  where the Rust code creates the error (`anyhow::Context` wrapping only
  augments messages, which we do not model further).
* The results of concurrently joined tasks (`JoinSet::join_all`) are passed
  in as an explicit list, in the (nondeterministic) completion order.
-/

namespace WifiExp

/-- Embedding of `HostId` (`src/hosts.rs`): `pub type HostId = String`. -/
abbrev HostId := String

/-- Embedding of `Host` (`src/hosts.rs`). The live SSH session and OS info are
irrelevant to the claims; we keep the identifier and the wifi-driver field of
`ExtraData`. -/
structure Host where
  id : HostId
  wifi_driver : Option String := none
deriving DecidableEq, Repr

/-- Embedding of `HostConfig` (`src/hosts.rs`): the fields relevant to
validation. -/
structure HostConfig where
  id : HostId
  url : String := ""
  relays : List String := []
deriving DecidableEq, Repr

/-- Loop of `HostsConfig::validate` (`src/hosts.rs` lines 64-77): iterate over
the hosts inserting each id into a set; the first id whose insertion reports
"already present" aborts with a duplicate-id error naming it. `seen` models the
`HashSet` contents. -/
def validateGo (seen : List String) : List HostConfig → Except String Unit
  | [] => .ok ()
  | host :: rest =>
    if host.id ∈ seen then
      .error ("duplicate host id: `" ++ host.id ++ "`")
    else
      validateGo (host.id :: seen) rest

/-- Embedding of `HostsConfig::validate` (`src/hosts.rs`). -/
def validate (hosts : List HostConfig) : Except String Unit :=
  validateGo [] hosts

/-- Embedding of `Hosts` (`src/hosts.rs`): the `HashMap<HostId, Arc<Host>>` is
modelled as the list of its entries (in the map's fixed but unspecified
iteration order). Well-formedness (`Hosts.Wf`) records the map invariant that
keys are unique. -/
structure Hosts where
  hosts : List Host

/-- The `HashMap` invariant: one entry per key. Guaranteed by construction in
`HostsConfig::connect` (duplicate ids are rejected by `validate`). -/
def Hosts.Wf (h : Hosts) : Prop := (h.hosts.map (·.id)).Nodup

/-- Embedding of `Hosts::get` (`src/hosts.rs`): `self.map.get(id)`. -/
def Hosts.get (h : Hosts) (id : String) : Option Host :=
  h.hosts.find? (fun host => host.id == id)

/-- Embedding of `Hosts::get_many` (`src/hosts.rs` lines 169-184): first scan
`ids` for the first identifier that does not resolve and fail with it;
otherwise map every identifier to its host (the `expect` in the source cannot
fire because of the scan). -/
def Hosts.get_many (h : Hosts) (ids : List String) : Except String (List Host) :=
  match ids.find? (fun id => (h.get id).isNone) with
  | some missing => .error missing
  | none => .ok (ids.filterMap h.get)

/-- Embedding of `Hosts::all_except` (`src/hosts.rs` lines 189-203): build the
set of ids of the *resolvable* excluded identifiers (`filter_map(get)` drops
unknown ids), then keep the map entries whose id is not in that set. -/
def Hosts.all_except (h : Hosts) (excluded : List String) : List Host :=
  let set := (excluded.filterMap h.get).map (·.id)
  h.hosts.filter (fun host => !set.contains host.id)

/-! ## capture.rs -/

/-- Embedding of `StopCondition` (`src/capture.rs`). The `Duration` variant
carries whole seconds (`Duration::as_secs`). -/
inductive StopCondition where
  | duration (secs : Nat)
  | packets (count : Nat)
deriving DecidableEq, Repr

/-- Embedding of `CaptureConfig` (`src/capture.rs`); paths are strings. -/
structure CaptureConfig where
  interface : String
  stop_condition : StopCondition
  output_path : Option String := none
deriving DecidableEq, Repr

/-- Embedding of the `--autostop` argument string built from the stop
condition in `Host::capture` (`src/capture.rs` lines 62-65). -/
def stopConditionArg : StopCondition → String
  | .duration secs => "duration:" ++ toString secs
  | .packets count => "packets:" ++ toString count

/-- Embedding of `Capture` (`src/capture.rs`): a capture stored in a file (we
record the path of the open handle and the bytes written through it) or in an
in-memory buffer. -/
inductive Capture where
  | File (path : String) (contents : List Nat)
  | Buffer (data : List Nat)
deriving DecidableEq, Repr

/-- Observable steps of `Host::capture`, in program order: the local
exclusive file creation, then the remote-process interactions. -/
inductive CaptureEvent where
  | createFile (path : String)
  | spawnRemote
  | copyStream
  | waitRemote
deriving DecidableEq, Repr

/-- Environment of one `Host::capture` call: whether the remote spawn, the
stream copy and the process wait succeed, the bytes the remote process writes
to its stdout, and its exit status. -/
structure CaptureEnv where
  spawn_ok : Bool
  copy_ok : Bool
  wait_ok : Bool
  output_bytes : List Nat
  exit_status : Int
deriving DecidableEq, Repr

/-- Remote part of `Host::capture` (`src/capture.rs` lines 67-116), entered
only after the output sink has been resolved: spawn the remote tshark process,
copy its piped stdout into the sink, wait for its exit status and fail on a
non-success status. -/
def captureRun (sink : Capture) (trace : List CaptureEvent) (env : CaptureEnv) :
    Except String Capture × List CaptureEvent :=
  if env.spawn_ok = false then
    (.error "failed to start remote wireshark capture", trace ++ [.spawnRemote])
  else if env.copy_ok = false then
    match sink with
    | .File _ _ =>
      (.error "failed to write capture to file", trace ++ [.spawnRemote, .copyStream])
    | .Buffer _ =>
      (.error "failed to write capture to buffer", trace ++ [.spawnRemote, .copyStream])
  else
    let filled := match sink with
      | .File path _ => Capture.File path env.output_bytes
      | .Buffer _ => Capture.Buffer env.output_bytes
    if env.wait_ok = false then
      (.error "remote capture failed", trace ++ [.spawnRemote, .copyStream, .waitRemote])
    else if env.exit_status ≠ 0 then
      (.error ("remote capture failed with status " ++ toString env.exit_status),
        trace ++ [.spawnRemote, .copyStream, .waitRemote])
    else
      (.ok filled, trace ++ [.spawnRemote, .copyStream, .waitRemote])

/-- Embedding of `Host::capture` (`src/capture.rs` lines 50-117). `existing`
is the set of paths that already exist, so `File::create_new` fails exactly on
them. Returns the result together with the ordered trace of events. The sink
(fresh file or in-memory buffer) is resolved first, before any remote step. -/
def capture (existing : List String) (config : CaptureConfig) (env : CaptureEnv) :
    Except String Capture × List CaptureEvent :=
  match config.output_path with
  | some path =>
    if path ∈ existing then
      (.error "could not create capture output file", [.createFile path])
    else
      captureRun (Capture.File path []) [.createFile path] env
  | none => captureRun (Capture.Buffer []) [] env

/-- Embedding of `std::io::Cursor<Vec<u8>>`: the underlying bytes and the
current read position. The same model serves for a `std::fs::File` handle,
whose sequential reads also advance a position over the file's bytes. -/
structure Cursor where
  data : List Nat
  pos : Nat
deriving DecidableEq, Repr

/-- Embedding of `CaptureReader` (`src/capture.rs`). -/
inductive CaptureReader where
  | File (cursor : Cursor)
  | Buffer (cursor : Cursor)
deriving DecidableEq, Repr

/-- Embedding of `Capture::reader` (`src/capture.rs` lines 120-125): the
`File` variant converts the async handle into a std one over the same bytes,
the `Buffer` variant wraps the bytes in `Cursor::new`, which starts reading at
position 0. -/
def Capture.reader : Capture → CaptureReader
  | .File _ contents => .File ⟨contents, 0⟩
  | .Buffer data => .Buffer ⟨data, 0⟩

/-- One `Read::read` call on a cursor with a caller buffer of capacity `n`:
returns the bytes copied out and the advanced cursor. -/
def Cursor.read (c : Cursor) (n : Nat) : List Nat × Cursor :=
  let bytes := (c.data.drop c.pos).take n
  (bytes, ⟨c.data, c.pos + bytes.length⟩)

/-- Embedding of `impl Read for CaptureReader` (`src/capture.rs` lines
134-140): both variants delegate to the underlying sequential reader. -/
def CaptureReader.read : CaptureReader → Nat → List Nat × CaptureReader
  | .File c, n => ((c.read n).1, .File (c.read n).2)
  | .Buffer c, n => ((c.read n).1, .Buffer (c.read n).2)

/-- Reading a cursor to completion with a scratch buffer of capacity `chunk`:
repeat `read` until it returns no bytes (the `Read::read_to_end` contract) and
concatenate everything read. -/
def Cursor.readToEnd (c : Cursor) (chunk : Nat) : List Nat :=
  if h : (c.read chunk).1 = [] then []
  else (c.read chunk).1 ++ (c.read chunk).2.readToEnd chunk
termination_by c.data.length - c.pos
decreasing_by
  have h1 : 0 < ((c.data.drop c.pos).take chunk).length :=
    List.length_pos.mpr h
  simp only [Cursor.read, List.length_take, List.length_drop] at h1 ⊢
  have h2 : min chunk (c.data.length - c.pos) ≤ c.data.length - c.pos :=
    Nat.min_le_right _ _
  omega

/-- Reading a `CaptureReader` to completion: the `Read` implementation
delegates to the underlying reader in both variants. -/
def CaptureReader.readToEnd : CaptureReader → Nat → List Nat
  | .File c, chunk => c.readToEnd chunk
  | .Buffer c, chunk => c.readToEnd chunk

/-! ## utils.rs -/

/-- Embedding of `std::process::Output`: exit status plus captured stdout and
stderr bytes. -/
structure Output where
  status : Int
  stdout : List Nat
  stderr : List Nat
deriving DecidableEq, Repr

/-- Embedding of `run_all` (`src/utils.rs` lines 9-38). One remote shell
execution is spawned per host; `tasks` is the joined list of (host, outcome)
pairs in completion order, where an `Except.error` is a launch/await failure
of `session.shell(command).output()` and an `Except.ok` carries the process
output (exit status included, zero or not). The loop over the joined results
returns the first error, otherwise collects every pair. -/
def run_all : List (Host × Except String Output) → Except String (List (Host × Output))
  | [] => .ok []
  | (_, .error e) :: _ => .error e
  | (host, .ok out) :: rest =>
    match run_all rest with
    | .error e => .error e
    | .ok acc => .ok ((host, out) :: acc)

/-! ## monitor.rs -/

/-- Embedding of `str::split('\n')` on a character list: the segments between
newline characters, keeping empty segments (a final empty segment occurs
exactly when the text ends with a newline). -/
def splitNewline : List Char → List (List Char)
  | [] => [[]]
  | c :: rest =>
    let r := splitNewline rest
    if c = '\n' then [] :: r
    else
      match r with
      | [] => [[c]]
      | seg :: segs => (c :: seg) :: segs

/-- Strip one `'\r'` from the end of a segment (the `\r\n` handling of
`str::lines`). -/
def stripCR (cs : List Char) : List Char :=
  if cs.getLast? = some '\r' then cs.dropLast else cs

/-- Embedding of `str::lines` (used in `src/monitor.rs` line 110): split on
`'\n'`, strip a `'\r'` at the end of each terminated segment, and drop the
final segment when it is empty (trailing line terminator, or empty text). -/
def rustLinesChars (cs : List Char) : List (List Char) :=
  let parts := splitNewline cs
  let init := parts.dropLast.map stripCR
  match parts.getLast? with
  | some last => if last = [] then init else init ++ [last]
  | none => init

/-- Embedding of `str::strip_prefix("0x")` composed with `unwrap_or` as in
`src/monitor.rs` line 111: drop a leading `0x` if present. -/
def strip0x : List Char → List Char
  | '0' :: 'x' :: rest => rest
  | cs => cs

/-- Value of one hexadecimal digit character (`char::to_digit(16)`). -/
def hexDigitVal (c : Char) : Option Nat :=
  if '0' ≤ c ∧ c ≤ '9' then some (c.toNat - '0'.toNat)
  else if 'a' ≤ c ∧ c ≤ 'f' then some (c.toNat - 'a'.toNat + 10)
  else if 'A' ≤ c ∧ c ≤ 'F' then some (c.toNat - 'A'.toNat + 10)
  else none

/-- Fold a digit sequence in base 16, failing on the first non-digit. -/
def parseHexDigits (cs : List Char) : Option Nat :=
  cs.foldl
    (fun acc c =>
      match acc, hexDigitVal c with
      | some a, some d => some (a * 16 + d)
      | _, _ => none)
    (some 0)

/-- Embedding of `u16::from_str_radix(s, 16)` (`src/monitor.rs` line 112): an
optional leading `+`, then one or more base-16 digits; the value must fit in
16 bits. Working in `Nat`, some intermediate `u16` multiply/add overflows iff
the exact final value is `≥ 2^16`, since appending digits never decreases the
exact value; so a single final bound check is equivalent. -/
def u16FromStrRadix16 (cs : List Char) : Option Nat :=
  let digits := match cs with
    | '+' :: rest => rest
    | other => other
  if digits = [] then none
  else
    match parseHexDigits digits with
    | none => none
    | some v => if v < 65536 then some v else none

/-- Embedding of the per-line fold of `MonitorConfig::start`
(`src/monitor.rs` lines 110-119): map each line through the `0x` strip and the
base-16 parse, and `try_fold` the results in order, failing on the first parse
error (the `context` call attaches the fixed message used here). -/
def parseAidsLines : List (List Char) → Except String (List Nat)
  | [] => .ok []
  | line :: rest =>
    match u16FromStrRadix16 (strip0x line) with
    | none => .error "could not parse association ID"
    | some v =>
      match parseAidsLines rest with
      | .error e => .error e
      | .ok vs => .ok (v :: vs)

/-- Embedding of the association-ID parsing in `MonitorConfig::start`
(`src/monitor.rs` lines 109-119): read the discovery output text, skip the
header line, parse the remaining lines. -/
def parseAids (s : String) : Except String (List Nat) :=
  parseAidsLines ((rustLinesChars s.toList).drop 1)

/-- Embedding of the AID-assignment portion of `MonitorConfig::start` under
`set_aids` (`src/monitor.rs` lines 56-126): require at least one monitor host
(`monitors.get(0)`), parse the discovery capture text, then build the
(aid, monitor host) assignment pairs that the driver calls iterate over. The
source's length check against the expected count is commented out, and the
parsed list is shadowed by the literal `let aids = vec![1];` before the
`zip` with the monitor hosts — embedded as written. -/
def discoverAidAssignments (captureText : String) (monitors : List Host) :
    Except String (List (Nat × HostId)) :=
  if monitors.isEmpty then
    .error "monitoring requires at least one monitor host"
  else
    match parseAids captureText with
    | .error e => .error e
    | .ok _parsed =>
      let aids : List Nat := [1]
      .ok (aids.zip (monitors.map (·.id)))

/-- Split a character list at the last occurrence of `sep`, returning the
parts before and after it, or `none` when `sep` does not occur. -/
def splitAtLastChar (sep : Char) : List Char → Option (List Char × List Char)
  | [] => none
  | c :: rest =>
    match splitAtLastChar sep rest with
    | some (before, after) => some (c :: before, after)
    | none => if c = sep then some ([], rest) else none

/-- Embedding of `Path::file_stem` for a normal file-name component:
everything before the last `'.'`, except that a leading dot that is the only
dot does not begin an extension (hidden files keep their name). -/
def rustFileStem (cs : List Char) : List Char :=
  match splitAtLastChar '.' cs with
  | some ([], _) => cs
  | some (before, _) => before
  | none => cs

/-- Embedding of `Path::join` — that is, `PathBuf::push` — for a relative
child without separators (the host id in `src/monitor.rs` line 159): append a
`/` separator unless the base is empty or already ends with one, then the
child. In particular `join("")` only appends the separator. -/
def pathJoin (base child : String) : String :=
  if base = "" then child
  else if base.toList.getLast? = some '/' then base ++ child
  else base ++ "/" ++ child

/-- Trailing-component normalization performed by the `Path` components
parser, on a reversed character list: strip trailing `/` separators and
trailing `.` (current-directory) components, which `Components` removes, so
that the file name of `out/`, `out/.` or `x/././` is found further left. A
`.` that is part of a longer final component (as in `a.` or `..`) is kept. -/
def skipTrailingJunk : List Char → List Char
  | [] => []
  | c :: rest =>
    if c = '/' then skipTrailingJunk rest
    else if c = '.' then
      match rest with
      | [] => []
      | c2 :: rest2 => if c2 = '/' then skipTrailingJunk rest else '.' :: c2 :: rest2
    else c :: rest

/-- Embedding of locating `Path::file_name` inside the raw path string: after
stripping trailing separators and `.` components, the final run of
non-separator characters is the file name. An empty remainder (empty path,
root, or only dots and slashes) or a `..` (parent-directory) component yields
`none`, exactly when `file_name()` returns `None`. On success returns the raw
prefix up to the file name together with the file name itself. -/
def fileNameSplit (cs : List Char) : Option (List Char × List Char) :=
  let rem := skipTrailingJunk cs.reverse
  if rem = [] then none
  else
    let compRev := rem.takeWhile (fun c => c != '/')
    if compRev = ['.', '.'] then none
    else some ((rem.drop compRev.length).reverse, compRev.reverse)

/-- Embedding of `Path::with_extension` for a non-empty new extension:
`set_extension` locates the file name, truncates the raw path at the end of
the file name's stem, and appends a dot and the new extension; when the path
has no file name (`fileNameSplit` is `none`) it returns the path unchanged,
as `set_extension` returns `false` without modifying the path. -/
def pathWithExtension (p : String) (ext : String) : String :=
  match fileNameSplit p.toList with
  | none => p
  | some (pre, name) =>
    String.mk pre ++ String.mk (rustFileStem name) ++ "." ++ ext

/-- Embedding of the per-host output-path computation in
`MonitorConfig::start` (`src/monitor.rs` lines 157-160):
`output_path.map(|v| v.join(&monitor_host.id).with_extension("pcapng"))`. -/
def monitorCaptureOutputPath (output_path : Option String) (id : HostId) :
    Option String :=
  output_path.map (fun v => pathWithExtension (pathJoin v id) "pcapng")

/-- Embedding of the `CaptureConfig` built for each monitor host in
`MonitorConfig::start` (`src/monitor.rs` lines 152-161). -/
def monitorCaptureConfig (output_path : Option String) (duration_secs : Nat)
    (id : HostId) : CaptureConfig :=
  { interface := "mon0"
    stop_condition := .duration duration_secs
    output_path := monitorCaptureOutputPath output_path id }

/-- Embedding of `Monitor::wait` (`src/monitor.rs` lines 176-189): fold over
the joined capture-task results (in completion order), pushing each success
and aborting with the first error (whose message `context` augments). -/
def monitorWait :
    List (Except String (HostId × Capture)) → Except String (List (HostId × Capture))
  | [] => .ok []
  | .error e :: _ => .error e
  | .ok v :: rest =>
    match monitorWait rest with
    | .error e => .error e
    | .ok acc => .ok (v :: acc)

/-! ## Helper lemmas about the registry -/

lemma Hosts.get_isSome_of_mem (h : Hosts) (host : Host) (hm : host ∈ h.hosts) :
    (h.get host.id).isSome :=
  List.find?_isSome.mpr ⟨host, hm, by simp⟩

lemma Hosts.get_id (h : Hosts) (id : String) (host : Host)
    (hf : h.get id = some host) : host.id = id := by
  have := List.find?_some hf
  simpa using this

lemma Hosts.get_mem (h : Hosts) (id : String) (host : Host)
    (hf : h.get id = some host) : host ∈ h.hosts :=
  List.mem_of_find?_eq_some hf

lemma validateGo_ok_iff (hosts : List HostConfig) :
    ∀ seen, validateGo seen hosts = .ok () ↔
      ((hosts.map (·.id)).Nodup ∧ ∀ x ∈ hosts, x.id ∉ seen) := by
  induction hosts with
  | nil => intro seen; simp [validateGo]
  | cons host rest ih =>
    intro seen
    by_cases hmem : host.id ∈ seen
    · simp only [validateGo, if_pos hmem]
      constructor
      · intro hcontra; cases hcontra
      · rintro ⟨-, hall⟩
        exact absurd hmem (hall host (by simp))
    · simp only [validateGo, if_neg hmem, ih (host.id :: seen)]
      constructor
      · rintro ⟨hnodup, hall⟩
        refine ⟨List.nodup_cons.mpr ⟨?_, hnodup⟩, ?_⟩
        · intro hc
          obtain ⟨x, hx, hxid⟩ := List.mem_map.mp hc
          exact (hall x hx (by simp [hxid])).elim
        · intro x hx
          rcases List.mem_cons.mp hx with rfl | hx'
          · exact hmem
          · have := hall x hx'
            simp only [List.mem_cons] at this
            exact fun hc => this (Or.inr hc)
      · rintro ⟨hnodup, hall⟩
        obtain ⟨hhead, hrest⟩ := List.nodup_cons.mp hnodup
        refine ⟨hrest, fun x hx => ?_⟩
        simp only [List.mem_cons]
        rintro (hc | hc)
        · exact hhead (List.mem_map.mpr ⟨x, hx, hc⟩)
        · exact hall x (List.mem_cons_of_mem _ hx) hc

lemma validateGo_error_spec (hosts : List HostConfig) :
    ∀ seen, validateGo seen hosts ≠ .ok () →
      ∃ d, validateGo seen hosts = .error ("duplicate host id: `" ++ d ++ "`") ∧
        (d ∈ seen ∧ d ∈ hosts.map (·.id) ∨ 2 ≤ (hosts.map (·.id)).count d) := by
  induction hosts with
  | nil => intro seen hne; exact absurd rfl hne
  | cons host rest ih =>
    intro seen hne
    by_cases hmem : host.id ∈ seen
    · refine ⟨host.id, ?_, Or.inl ⟨hmem, by simp⟩⟩
      simp [validateGo, if_pos hmem]
    · simp only [validateGo, if_neg hmem] at hne ⊢
      obtain ⟨d, herr, hcase⟩ := ih (host.id :: seen) hne
      refine ⟨d, herr, ?_⟩
      rcases hcase with ⟨hdseen, hdrest⟩ | hcount
      · rcases List.mem_cons.mp hdseen with heq | hdseen'
        · right
          subst heq
          have h1 : 1 ≤ (rest.map (·.id)).count host.id :=
            List.one_le_count_iff.mpr hdrest
          simp only [List.map_cons, List.count_cons_self]
          omega
        · exact Or.inl ⟨hdseen', List.mem_cons_of_mem _ hdrest⟩
      · right
        simp only [List.map_cons]
        calc 2 ≤ (rest.map (·.id)).count d := hcount
          _ ≤ (host.id :: rest.map (·.id)).count d := List.count_le_count_cons d _ _

/-! ## C8: duplicate-id validation -/

/-- C8: validating a host list fails exactly when two hosts share an id; when it
fails, the error names an id that occurs at least twice in the list, and a list
with all-distinct ids always validates. -/
theorem c8_validate_duplicate_ids (hosts : List HostConfig) :
    (validate hosts = .ok () ↔ (hosts.map (·.id)).Nodup) ∧
    (¬ (hosts.map (·.id)).Nodup →
      ∃ d, validate hosts = .error ("duplicate host id: `" ++ d ++ "`") ∧
        2 ≤ (hosts.map (·.id)).count d) := by
  have hiff : validate hosts = .ok () ↔ (hosts.map (·.id)).Nodup := by
    simpa [validate] using validateGo_ok_iff hosts []
  constructor
  · exact hiff
  · intro hnd
    have hne : validate hosts ≠ .ok () := fun hc => hnd (hiff.mp hc)
    obtain ⟨d, herr, hcase⟩ := validateGo_error_spec hosts [] hne
    refine ⟨d, herr, ?_⟩
    rcases hcase with ⟨hfalse, -⟩ | h2
    · cases hfalse
    · exact h2

/-- Witness for C8 at a concrete duplicated host list. -/
theorem c8_validate_duplicate_ids_witness :
    ∃ d, validate [{id := "a"}, {id := "b"}, {id := "a"}] =
        .error ("duplicate host id: `" ++ d ++ "`") ∧
      2 ≤ (([{id := "a"}, {id := "b"}, {id := "a"}] : List HostConfig).map (·.id)).count d :=
  (c8_validate_duplicate_ids [{id := "a"}, {id := "b"}, {id := "a"}]).2 (by decide)

/-! ## C4: fail-fast multi-get -/

lemma mapM_option_eq_some {α β : Type} (f : α → Option β) :
    ∀ (xs : List α) (ys : List β),
      xs.mapM f = some ys ↔ (∀ x ∈ xs, (f x).isSome) ∧ ys = xs.filterMap f := by
  intro xs
  induction xs with
  | nil =>
    intro ys
    rw [List.mapM_nil]
    simp only [Option.pure_def, Option.some.injEq, List.filterMap_nil, List.not_mem_nil,
      false_implies, implies_true, true_and]
    exact eq_comm
  | cons x rest ih =>
    intro ys
    rw [List.mapM_cons]
    cases hfx : f x with
    | none =>
      constructor
      · intro hsome
        simp at hsome
      · rintro ⟨hall, -⟩
        have := hall x (by simp)
        rw [hfx] at this
        cases this
    | some b =>
      cases hrest : rest.mapM f with
      | none =>
        constructor
        · intro hsome
          simp at hsome
        · rintro ⟨hall, -⟩
          have : rest.mapM f = some (rest.filterMap f) :=
            (ih _).mpr ⟨fun a ha => hall a (List.mem_cons_of_mem _ ha), rfl⟩
          rw [hrest] at this
          cases this
      | some bs =>
        obtain ⟨hall, rfl⟩ := (ih bs).mp hrest
        constructor
        · intro hsome
          simp only [Option.bind_eq_bind, Option.some_bind, Option.pure_def,
            Option.some.injEq] at hsome
          subst hsome
          refine ⟨?_, by simp [List.filterMap_cons, hfx]⟩
          intro a ha
          rcases List.mem_cons.mp ha with rfl | ha'
          · simp [hfx]
          · exact hall a ha'
        · rintro ⟨-, rfl⟩
          simp [List.filterMap_cons, hfx]

lemma mapM_option_eq_none_of_mem {α β : Type} (f : α → Option β) (xs : List α)
    (x : α) (hx : x ∈ xs) (hnone : f x = none) : xs.mapM f = none := by
  cases hmap : xs.mapM f with
  | none => rfl
  | some ys =>
    have := ((mapM_option_eq_some f xs ys).mp hmap).1 x hx
    rw [hnone] at this
    cases this

/-- C4: `get_many` succeeds exactly when every id resolves, returning the hosts
in input order (`mapM` over the registry lookup); it fails exactly with the
first id, in iteration order, that is not present. Never a partial list. -/
theorem c4_get_many (h : Hosts) (ids : List String) :
    (∀ l, h.get_many ids = .ok l ↔ ids.mapM h.get = some l) ∧
    (∀ m, h.get_many ids = .error m ↔
      ∃ pre post, ids = pre ++ m :: post ∧
        (∀ x ∈ pre, (h.get x).isSome) ∧ (h.get m).isNone) := by
  constructor
  · intro l
    unfold Hosts.get_many
    cases hfind : ids.find? (fun id => (h.get id).isNone) with
    | some missing =>
      simp only
      constructor
      · intro hc; cases hc
      · intro hmap
        have hmem := List.mem_of_find?_eq_some hfind
        have hpred := List.find?_some hfind
        have : ids.mapM h.get = none :=
          mapM_option_eq_none_of_mem h.get ids missing hmem
            (Option.isNone_iff_eq_none.mp (by simpa using hpred))
        rw [this] at hmap
        cases hmap
    | none =>
      simp only [Except.ok.injEq]
      have hall : ∀ x ∈ ids, (h.get x).isSome := by
        intro x hx
        have := List.find?_eq_none.mp hfind x hx
        simpa [Option.isNone_iff_eq_none, Option.isSome_iff_ne_none] using this
      rw [mapM_option_eq_some]
      constructor
      · rintro rfl; exact ⟨hall, rfl⟩
      · rintro ⟨-, rfl⟩; rfl
  · intro m
    unfold Hosts.get_many
    cases hfind : ids.find? (fun id => (h.get id).isNone) with
    | some missing =>
      simp only [Except.error.injEq]
      constructor
      · rintro rfl
        obtain ⟨hpred, pre, post, hsplit, hpre⟩ := List.find?_eq_some.mp hfind
        refine ⟨pre, post, hsplit, fun x hx => ?_, by simpa using hpred⟩
        have := hpre x hx
        simpa [Option.isSome_iff_ne_none, Option.isNone_iff_eq_none] using this
      · rintro ⟨pre, post, hsplit, hpre, hm⟩
        have : ids.find? (fun id => (h.get id).isNone) = some m := by
          apply List.find?_eq_some.mpr
          refine ⟨by simpa using hm, pre, post, hsplit, fun x hx => ?_⟩
          have := hpre x hx
          simpa [Option.isSome_iff_ne_none, Option.isNone_iff_eq_none] using this
        rw [hfind] at this
        exact (Option.some.injEq _ _).mp this
    | none =>
      simp only
      constructor
      · intro hc; cases hc
      · rintro ⟨pre, post, hsplit, -, hm⟩
        have hmem : m ∈ ids := by rw [hsplit]; simp
        have := List.find?_eq_none.mp hfind m hmem
        simp only [Option.isNone_iff_eq_none] at hm
        simp [hm] at this

/-- Witness for C4 at a concrete registry: `get_many ["a","missing","b"]`
against a registry with hosts "a" and "b" errors with "missing". -/
theorem c4_get_many_witness :
    (Hosts.mk [{id := "a"}, {id := "b"}]).get_many ["a", "missing", "b"] =
      .error "missing" := by
  apply ((c4_get_many (Hosts.mk [{id := "a"}, {id := "b"}]) ["a", "missing", "b"]).2
    "missing").mpr
  exact ⟨["a"], ["b"], rfl, by decide, by decide⟩

/-! ## C7: all_except -/

lemma Hosts.excluded_set_mem (h : Hosts) (excluded : List String) (host : Host)
    (hm : host ∈ h.hosts) :
    host.id ∈ (excluded.filterMap h.get).map (·.id) ↔ host.id ∈ excluded := by
  constructor
  · intro hc
    obtain ⟨h', hh', hid⟩ := List.mem_map.mp hc
    obtain ⟨e, he, hget⟩ := List.mem_filterMap.mp hh'
    have heq := h.get_id e h' hget
    rw [← hid, heq]
    exact he
  · intro hc
    obtain ⟨h', hh'⟩ := Option.isSome_iff_exists.mp (h.get_isSome_of_mem host hm)
    refine List.mem_map.mpr ⟨h', List.mem_filterMap.mpr ⟨host.id, hc, hh'⟩, ?_⟩
    exact h.get_id _ _ hh'

/-- C7: `all_except` is total and yields exactly the registry hosts whose id is
not excluded, each exactly once; unknown excluded ids are ignored (membership
only depends on whether the host's id is in the excluded list). -/
theorem c7_all_except (h : Hosts) (excluded : List String) (hw : h.Wf) :
    (∀ host, host ∈ h.all_except excluded ↔ host ∈ h.hosts ∧ host.id ∉ excluded) ∧
    ((h.all_except excluded).map (·.id)).Nodup := by
  constructor
  · intro host
    unfold Hosts.all_except
    rw [List.mem_filter]
    constructor
    · rintro ⟨hm, hp⟩
      refine ⟨hm, fun hc => ?_⟩
      have : host.id ∈ (excluded.filterMap h.get).map (·.id) :=
        (h.excluded_set_mem excluded host hm).mpr hc
      simp only [Bool.not_eq_true', ← Bool.not_eq_true] at hp
      exact hp (by simpa [List.elem_iff] using this)
    · rintro ⟨hm, hnc⟩
      refine ⟨hm, ?_⟩
      have : host.id ∉ (excluded.filterMap h.get).map (·.id) :=
        fun hc => hnc ((h.excluded_set_mem excluded host hm).mp hc)
      simpa [List.elem_iff] using this
  · have hw' : (h.hosts.map (·.id)).Nodup := hw
    exact (List.Sublist.map (·.id) (List.filter_sublist h.hosts)).nodup hw'

/-- Witness for C7 at a concrete registry and excluded list (mixing a known and
an unknown id). -/
theorem c7_all_except_witness :
    (Hosts.mk [{id := "a"}, {id := "b"}, {id := "c"}]).Wf ∧
      ((∀ host, host ∈ (Hosts.mk [{id := "a"}, {id := "b"}, {id := "c"}]).all_except
          ["b", "zz"] ↔
        host ∈ (Hosts.mk [{id := "a"}, {id := "b"}, {id := "c"}]).hosts ∧
          host.id ∉ (["b", "zz"] : List String)) ∧
      (((Hosts.mk [{id := "a"}, {id := "b"}, {id := "c"}]).all_except
          ["b", "zz"]).map (·.id)).Nodup) :=
  ⟨by unfold Hosts.Wf; decide, c7_all_except _ ["b", "zz"] (by unfold Hosts.Wf; decide)⟩

/-! ## C3: association-ID parsing -/

lemma u16FromStrRadix16_lt {cs : List Char} {v : Nat}
    (h : u16FromStrRadix16 cs = some v) : v < 65536 := by
  simp only [u16FromStrRadix16] at h
  split at h
  · cases h
  · split at h
    · cases h
    · split at h
      · cases h
        assumption
      · cases h

lemma parseAidsLines_ok_iff (lines : List (List Char)) :
    ∀ vs, parseAidsLines lines = .ok vs ↔
      lines.mapM (fun l => u16FromStrRadix16 (strip0x l)) = some vs := by
  induction lines with
  | nil =>
    intro vs
    rw [List.mapM_nil]
    simp only [parseAidsLines, Option.pure_def, Option.some.injEq, Except.ok.injEq]
  | cons line rest ih =>
    intro vs
    rw [List.mapM_cons]
    cases hline : u16FromStrRadix16 (strip0x line) with
    | none =>
      simp only [parseAidsLines, hline]
      constructor
      · intro hc; cases hc
      · intro hc
        simp at hc
    | some v =>
      cases hrest : parseAidsLines rest with
      | error e =>
        simp only [parseAidsLines, hline, hrest]
        constructor
        · intro hc; cases hc
        · intro hc
          simp only [Option.bind_eq_bind, Option.some_bind] at hc
          cases hmapm : rest.mapM (fun l => u16FromStrRadix16 (strip0x l)) with
          | none =>
            rw [hmapm] at hc
            simp at hc
          | some bs =>
            have := (ih bs).mpr hmapm
            rw [hrest] at this
            cases this
      | ok acc =>
        have hacc := (ih acc).mp hrest
        simp only [parseAidsLines, hline, hrest, Except.ok.injEq, hacc,
          Option.bind_eq_bind, Option.some_bind, Option.pure_def, Option.some.injEq]

lemma parseAidsLines_error_iff (lines : List (List Char)) :
    (∃ e, parseAidsLines lines = .error e) ↔
      ∃ l ∈ lines, u16FromStrRadix16 (strip0x l) = none := by
  induction lines with
  | nil =>
    simp [parseAidsLines]
  | cons line rest ih =>
    cases hline : u16FromStrRadix16 (strip0x line) with
    | none =>
      simp only [parseAidsLines, hline]
      constructor
      · intro _
        exact ⟨line, by simp, hline⟩
      · intro _
        exact ⟨"could not parse association ID", rfl⟩
    | some v =>
      cases hrest : parseAidsLines rest with
      | error e =>
        simp only [parseAidsLines, hline, hrest]
        constructor
        · intro _
          obtain ⟨l, hl, hlnone⟩ := ih.mp ⟨e, hrest⟩
          exact ⟨l, List.mem_cons_of_mem _ hl, hlnone⟩
        · intro _
          exact ⟨e, rfl⟩
      | ok acc =>
        simp only [parseAidsLines, hline, hrest]
        constructor
        · rintro ⟨e, he⟩
          cases he
        · rintro ⟨l, hl, hlnone⟩
          rcases List.mem_cons.mp hl with rfl | hl'
          · rw [hline] at hlnone
            cases hlnone
          · obtain ⟨e, he⟩ := ih.mpr ⟨l, hl', hlnone⟩
            rw [hrest] at he
            cases he

/-- C3: association-identifier parsing skips the header line (`drop 1` of the
split lines), strips an optional `0x` prefix, parses every remaining line as a
base-16 16-bit unsigned integer in order (`mapM`), and errors exactly when
some line fails to parse; every parsed value fits in 16 bits. -/
theorem c3_parse_aid_lines (s : String) :
    (∀ vs, parseAids s = .ok vs ↔
      ((rustLinesChars s.toList).drop 1).mapM
        (fun l => u16FromStrRadix16 (strip0x l)) = some vs) ∧
    ((∃ e, parseAids s = .error e) ↔
      ∃ l ∈ (rustLinesChars s.toList).drop 1,
        u16FromStrRadix16 (strip0x l) = none) ∧
    (∀ vs, parseAids s = .ok vs → ∀ v ∈ vs, v < 65536) := by
  refine ⟨fun vs => parseAidsLines_ok_iff _ vs, parseAidsLines_error_iff _, ?_⟩
  intro vs hok v hv
  have hmapm := (parseAidsLines_ok_iff _ vs).mp hok
  obtain ⟨-, rfl⟩ := (mapM_option_eq_some _ _ _).mp hmapm
  obtain ⟨l, -, hl⟩ := List.mem_filterMap.mp hv
  exact u16FromStrRadix16_lt hl

/-- Witness for C3 at a concrete discovery output: header skipped, `0x`
stripped, hex parsed in order, all values below `2^16`. -/
theorem c3_parse_aid_lines_witness :
    parseAids "wlan.fixed.aid\n0x0001\nb\n" = .ok [1, 11] ∧
      ∀ v ∈ ([1, 11] : List Nat), v < 65536 :=
  ⟨rfl, (c3_parse_aid_lines "wlan.fixed.aid\n0x0001\nb\n").2.2 [1, 11] rfl⟩

/-! ## C1: placeholder substitution in AID discovery (code bug) -/

/-- C1 (code bug): evaluating the discovery-assignment code at a failing
input. The discovery text parses to zero association IDs while two monitor
hosts are configured, yet the code succeeds, assigning the placeholder
identifier 1 to the first monitor host and silently skipping the second —
because the source's length check is commented out and the parsed list is
shadowed by `let aids = vec![1];`. The spec instead requires an explicit
length-mismatch error and no placeholder substitution. -/
theorem c1_placeholder_substitution :
    discoverAidAssignments "wlan.fixed.aid\n" [{id := "m1"}, {id := "m2"}] =
      .ok [(1, "m1")] := rfl

/-! ## C5: output sink resolved before the remote process -/

lemma captureRun_trace (sink : Capture) (trace : List CaptureEvent)
    (env : CaptureEnv) :
    ∃ suffix, (captureRun sink trace env).2 = trace ++ suffix := by
  unfold captureRun
  cases sink <;> split_ifs <;> exact ⟨_, rfl⟩

lemma captureRun_buffer (data : List Nat) (trace : List CaptureEvent)
    (env : CaptureEnv) (c : Capture)
    (h : (captureRun (Capture.Buffer data) trace env).1 = .ok c) :
    c = Capture.Buffer env.output_bytes := by
  unfold captureRun at h
  split_ifs at h <;> cases h <;> rfl

/-- C5: when the configured output path already exists, `Host::capture` fails
with the file-creation error and the remote process is never spawned; and
whenever an output path is configured, the very first step of the call is the
exclusive creation of that file, before any remote interaction. -/
theorem c5_capture_sink_before_spawn (existing : List String)
    (config : CaptureConfig) (env : CaptureEnv) :
    (∀ path, config.output_path = some path → path ∈ existing →
      (capture existing config env).1 = .error "could not create capture output file" ∧
      CaptureEvent.spawnRemote ∉ (capture existing config env).2) ∧
    (∀ path, config.output_path = some path →
      (capture existing config env).2.head? = some (.createFile path)) := by
  constructor
  · intro path hpath hexist
    unfold capture
    rw [hpath]
    simp [hexist]
  · intro path hpath
    unfold capture
    rw [hpath]
    by_cases hex : path ∈ existing
    · simp [hex]
    · simp only [if_neg hex]
      obtain ⟨suffix, hs⟩ := captureRun_trace (Capture.File path []) [.createFile path] env
      rw [hs]
      rfl

/-- Witness for C5: a capture whose output path already exists fails without
the spawn event appearing in the trace. -/
theorem c5_capture_sink_before_spawn_witness :
    (capture ["out/m.pcapng"]
        { interface := "mon0", stop_condition := .duration 5,
          output_path := some "out/m.pcapng" }
        { spawn_ok := true, copy_ok := true, wait_ok := true,
          output_bytes := [1, 2], exit_status := 0 }).1 =
      .error "could not create capture output file" ∧
    CaptureEvent.spawnRemote ∉
      (capture ["out/m.pcapng"]
        { interface := "mon0", stop_condition := .duration 5,
          output_path := some "out/m.pcapng" }
        { spawn_ok := true, copy_ok := true, wait_ok := true,
          output_bytes := [1, 2], exit_status := 0 }).2 :=
  (c5_capture_sink_before_spawn _ _ _).1 "out/m.pcapng" rfl (by decide)

/-! ## C9: capture output paths -/

lemma splitAtLastChar_eq_none (sep : Char) :
    ∀ cs : List Char, sep ∉ cs → splitAtLastChar sep cs = none := by
  intro cs
  induction cs with
  | nil => intro _; rfl
  | cons c rest ih =>
    intro hnm
    have hc : ¬ c = sep := fun h => hnm (by simp [h])
    have hrest : sep ∉ rest := fun h => hnm (List.mem_cons_of_mem _ h)
    simp [splitAtLastChar, ih hrest, hc]

lemma rustFileStem_no_dot (cs : List Char) (h : '.' ∉ cs) :
    rustFileStem cs = cs := by
  unfold rustFileStem
  rw [splitAtLastChar_eq_none '.' cs h]

lemma skipTrailingJunk_slash (xs : List Char) :
    skipTrailingJunk ('/' :: xs) = skipTrailingJunk xs := by
  simp [skipTrailingJunk]

lemma skipTrailingJunk_cons_of_ne (c : Char) (xs : List Char)
    (h1 : ¬ c = '/') (h2 : ¬ c = '.') :
    skipTrailingJunk (c :: xs) = c :: xs := by
  simp [skipTrailingJunk, h1, h2]

lemma skipTrailingJunk_dot_cons (c2 : Char) (xs : List Char) (h : ¬ c2 = '/') :
    skipTrailingJunk ('.' :: c2 :: xs) = '.' :: c2 :: xs := by
  simp [skipTrailingJunk, h]

lemma skipTrailingJunk_dot_slash (xs : List Char) :
    skipTrailingJunk ('.' :: '/' :: xs) = skipTrailingJunk xs := by
  simp [skipTrailingJunk]

lemma takeWhile_ne_slash_append (xs tail : List Char) (hx : '/' ∉ xs) :
    (xs ++ '/' :: tail).takeWhile (fun c => c != '/') = xs := by
  induction xs with
  | nil => simp [List.takeWhile_cons]
  | cons c rest ih =>
    have hc : ¬ c = '/' := fun h => hx (by simp [h])
    have hrest : '/' ∉ rest := fun h => hx (List.mem_cons_of_mem _ h)
    simp [List.takeWhile_cons, hc, ih hrest]

lemma takeWhile_ne_slash_all (xs : List Char) (hx : '/' ∉ xs) :
    xs.takeWhile (fun c => c != '/') = xs := by
  induction xs with
  | nil => rfl
  | cons c rest ih =>
    have hc : ¬ c = '/' := fun h => hx (by simp [h])
    have hrest : '/' ∉ rest := fun h => hx (List.mem_cons_of_mem _ h)
    simp [List.takeWhile_cons, hc, ih hrest]

lemma skipTrailingJunk_keep (xs tail : List Char)
    (hx : '/' ∉ xs) (hne : xs ≠ []) (hdot : xs ≠ ['.']) :
    skipTrailingJunk (xs ++ '/' :: tail) = xs ++ '/' :: tail := by
  match xs, hne with
  | c :: rest, _ =>
    by_cases hc : c = '.'
    · subst hc
      match rest with
      | [] => exact absurd rfl hdot
      | c2 :: rest2 =>
        have hc2 : ¬ c2 = '/' := fun h => hx (by simp [h])
        simpa using skipTrailingJunk_dot_cons c2 (rest2 ++ '/' :: tail) hc2
    · have hcs : ¬ c = '/' := fun h => hx (by simp [h])
      simpa using skipTrailingJunk_cons_of_ne c (rest ++ '/' :: tail) hcs hc

lemma fileNameSplit_append_normal (dirL idL : List Char)
    (hid : '/' ∉ idL) (hne : idL ≠ []) (hdot : idL ≠ ['.'])
    (hdots : idL ≠ ['.', '.']) :
    fileNameSplit (dirL ++ '/' :: idL) = some (dirL ++ ['/'], idL) := by
  have hrev : (dirL ++ '/' :: idL).reverse = idL.reverse ++ '/' :: dirL.reverse := by
    simp [List.reverse_append, List.reverse_cons]
  have hidR : '/' ∉ idL.reverse := by simpa using hid
  have hneR : idL.reverse ≠ [] := by simpa using hne
  have hdotR : idL.reverse ≠ ['.'] := by
    intro h
    apply hdot
    have := congrArg List.reverse h
    simpa using this
  have hskip := skipTrailingJunk_keep idL.reverse dirL.reverse hidR hneR hdotR
  have htake := takeWhile_ne_slash_append idL.reverse dirL.reverse hidR
  have hdotsR : idL.reverse ≠ ['.', '.'] := by
    intro h
    apply hdots
    have := congrArg List.reverse h
    simpa using this
  simp only [fileNameSplit, hrev, hskip, htake]
  rw [if_neg (by simp), if_neg hdotsR, List.drop_left]
  simp [List.reverse_cons]

lemma skipTrailingJunk_clean (dirL : List Char)
    (h1 : '/' ∉ dirL) (h2 : '.' ∉ dirL) (h3 : dirL ≠ []) :
    skipTrailingJunk dirL.reverse = dirL.reverse := by
  obtain ⟨c, rest, hcr⟩ : ∃ c rest, dirL.reverse = c :: rest := by
    cases hd : dirL.reverse with
    | nil =>
      have : dirL = [] := by simpa using congrArg List.reverse hd
      exact absurd this h3
    | cons c rest => exact ⟨c, rest, rfl⟩
  have hcm : c ∈ dirL := by
    rw [← List.mem_reverse, hcr]
    exact List.mem_cons_self _ _
  have hc1 : ¬ c = '/' := fun h => h1 (h ▸ hcm)
  have hc2 : ¬ c = '.' := fun h => h2 (h ▸ hcm)
  rw [hcr]
  exact skipTrailingJunk_cons_of_ne c rest hc1 hc2

lemma fileNameSplit_of_skip (cs dirL : List Char)
    (hskip : skipTrailingJunk cs.reverse = dirL.reverse)
    (h1 : '/' ∉ dirL) (h2 : '.' ∉ dirL) (h3 : dirL ≠ []) :
    fileNameSplit cs = some ([], dirL) := by
  have htake := takeWhile_ne_slash_all dirL.reverse (by simpa using h1)
  have hdots : dirL.reverse ≠ ['.', '.'] := by
    intro h
    apply h2
    have : ('.' : Char) ∈ dirL.reverse := by rw [h]; simp
    simpa using this
  simp only [fileNameSplit, hskip, htake]
  rw [if_neg (by simpa using h3), if_neg hdots, List.drop_length]
  simp

lemma fileNameSplit_dir_slash (dirL : List Char)
    (h1 : '/' ∉ dirL) (h2 : '.' ∉ dirL) (h3 : dirL ≠ []) :
    fileNameSplit (dirL ++ ['/']) = some ([], dirL) := by
  apply fileNameSplit_of_skip _ _ _ h1 h2 h3
  have hrev : (dirL ++ ['/']).reverse = '/' :: dirL.reverse := by
    simp [List.reverse_append]
  rw [hrev, skipTrailingJunk_slash]
  exact skipTrailingJunk_clean dirL h1 h2 h3

lemma fileNameSplit_dir_slash_dot (dirL : List Char)
    (h1 : '/' ∉ dirL) (h2 : '.' ∉ dirL) (h3 : dirL ≠ []) :
    fileNameSplit (dirL ++ ['/', '.']) = some ([], dirL) := by
  apply fileNameSplit_of_skip _ _ _ h1 h2 h3
  have hrev : (dirL ++ ['/', '.']).reverse = '.' :: '/' :: dirL.reverse := by
    simp [List.reverse_append]
  rw [hrev, skipTrailingJunk_dot_slash]
  exact skipTrailingJunk_clean dirL h1 h2 h3

lemma fileNameSplit_dotdot (dirL : List Char) :
    fileNameSplit (dirL ++ ['/', '.', '.']) = none := by
  have hrev : (dirL ++ ['/', '.', '.']).reverse = '.' :: '.' :: '/' :: dirL.reverse := by
    simp [List.reverse_append]
  have hskip : skipTrailingJunk ('.' :: '.' :: '/' :: dirL.reverse) =
      '.' :: '.' :: '/' :: dirL.reverse :=
    skipTrailingJunk_dot_cons '.' ('/' :: dirL.reverse) (by decide)
  have htake : ('.' :: '.' :: '/' :: dirL.reverse).takeWhile (fun c => c != '/') =
      ['.', '.'] := by
    simp [List.takeWhile_cons]
  simp only [fileNameSplit, hrev, hskip, htake]
  simp

lemma string_toList_ne_nil (s : String) (hs : s ≠ "") : s.toList ≠ [] :=
  fun hc => hs (String.ext (by rw [show s.data = s.toList from rfl, hc]))

lemma string_toList_ne_dot (s : String) (hs : s ≠ ".") : s.toList ≠ ['.'] :=
  fun hc => hs (String.ext (by rw [show s.data = s.toList from rfl, hc]))

lemma string_toList_ne_dotdot (s : String) (hs : s ≠ "..") : s.toList ≠ ['.', '.'] :=
  fun hc => hs (String.ext (by rw [show s.data = s.toList from rfl, hc]))

/-- C9 counterexample: for the host id `"a.b"` (an id containing a dot) and
output directory `"out"`, the computed capture path is `out/a.pcapng` — the
`with_extension` call replaced the id's `.b` suffix — and not the claimed
`out/a.b.pcapng`. -/
theorem c9_dotted_id_counterexample :
    monitorCaptureOutputPath (some "out") "a.b" = some "out/a.pcapng" ∧
    monitorCaptureOutputPath (some "out") "a.b" ≠
      some ("out" ++ "/" ++ "a.b" ++ ".pcapng") := by
  constructor
  · rfl
  · intro hc
    have h1 : monitorCaptureOutputPath (some "out") "a.b" = some "out/a.pcapng" := rfl
    rw [h1] at hc
    injection hc with h2
    have h3 : ("out" ++ "/" ++ "a.b" ++ ".pcapng" : String) = "out/a.b.pcapng" := rfl
    rw [h3] at h2
    exact absurd h2 (by decide)

/-- C9 (amended): with an output directory `dir` (nonempty, not ending in a
separator) configured, the capture for a monitor host whose id is a single
normal path component (nonempty, without `/`, and not `.` or `..`) writes to
`dir/<stem>.pcapng`, where `<stem>` is the id with its extension — the part
after the last dot, when that dot is not the leading character — removed by
`with_extension`; this equals `dir/<host-id>.pcapng` exactly when the id
gains no extension (in particular for all dot-free ids). For the degenerate
ids `""` and `"."`, `join` leaves only a trailing separator or a `.`
component, so `with_extension` renames the directory itself: for a dot-free
single-component `dir` the path becomes `dir.pcapng`. For the id `".."` the
joined path has no file name and `with_extension` leaves it unchanged at
`dir/..`. With no output directory, the per-host capture config has no
output path and a successful capture is always an in-memory buffer. -/
theorem c9_capture_path_amended :
    (∀ dir id : String, dir ≠ "" → dir.toList.getLast? ≠ some '/' →
        '/' ∉ id.toList → id ≠ "" → id ≠ "." → id ≠ ".." →
      monitorCaptureOutputPath (some dir) id =
        some (dir ++ "/" ++ String.mk (rustFileStem id.toList) ++ ".pcapng")) ∧
    (∀ dir id : String, dir ≠ "" → dir.toList.getLast? ≠ some '/' →
        '/' ∉ id.toList → id ≠ "" → '.' ∉ id.toList →
      monitorCaptureOutputPath (some dir) id = some (dir ++ "/" ++ id ++ ".pcapng")) ∧
    (∀ dir : String, dir ≠ "" → '/' ∉ dir.toList → '.' ∉ dir.toList →
      monitorCaptureOutputPath (some dir) "" = some (dir ++ ".pcapng") ∧
      monitorCaptureOutputPath (some dir) "." = some (dir ++ ".pcapng")) ∧
    (∀ dir : String, dir ≠ "" → dir.toList.getLast? ≠ some '/' →
      monitorCaptureOutputPath (some dir) ".." = some (dir ++ "/" ++ "..")) ∧
    (∀ id, monitorCaptureOutputPath none id = none) ∧
    (∀ existing env secs id c,
      (capture existing (monitorCaptureConfig none secs id) env).1 = .ok c →
      ∃ bytes, c = Capture.Buffer bytes) := by
  have hdotcat : ∀ w : String, w ++ "." ++ "pcapng" = w ++ ".pcapng" := by
    intro w
    apply String.ext
    simp only [String.data_append, List.append_assoc]
    rfl
  have hjoin : ∀ dir id : String, dir ≠ "" → dir.toList.getLast? ≠ some '/' →
      pathJoin dir id = dir ++ "/" ++ id := by
    intro dir id h1 h2
    unfold pathJoin
    rw [if_neg h1, if_neg h2]
  have hmain : ∀ dir id : String, dir ≠ "" → dir.toList.getLast? ≠ some '/' →
      '/' ∉ id.toList → id ≠ "" → id ≠ "." → id ≠ ".." →
      monitorCaptureOutputPath (some dir) id =
        some (dir ++ "/" ++ String.mk (rustFileStem id.toList) ++ ".pcapng") := by
    intro dir id hd1 hd2 hi1 hi2 hi3 hi4
    unfold monitorCaptureOutputPath
    simp only [Option.map_some']
    rw [hjoin dir id hd1 hd2]
    unfold pathWithExtension
    have hdata : (dir ++ "/" ++ id).toList = dir.toList ++ '/' :: id.toList := by
      show (dir ++ "/" ++ id).data = dir.data ++ '/' :: id.data
      simp [String.data_append]
    rw [hdata, fileNameSplit_append_normal dir.toList id.toList hi1
      (string_toList_ne_nil id hi2) (string_toList_ne_dot id hi3)
      (string_toList_ne_dotdot id hi4)]
    show some (String.mk (dir.toList ++ ['/']) ++ String.mk (rustFileStem id.toList)
        ++ "." ++ "pcapng") =
      some (dir ++ "/" ++ String.mk (rustFileStem id.toList) ++ ".pcapng")
    rw [hdotcat]
    rfl
  refine ⟨hmain, ?_, ?_, ?_, fun _ => rfl, ?_⟩
  · intro dir id hd1 hd2 hi1 hi2 hdot
    have h3 : id ≠ "." := fun h => hdot (by rw [h]; decide)
    have h4 : id ≠ ".." := fun h => hdot (by rw [h]; decide)
    rw [hmain dir id hd1 hd2 hi1 hi2 h3 h4, rustFileStem_no_dot id.toList hdot]
    rfl
  · intro dir h1 h2 h3
    have hlast : dir.toList.getLast? ≠ some '/' :=
      fun hc => h2 (List.mem_of_mem_getLast? hc)
    constructor
    · unfold monitorCaptureOutputPath
      simp only [Option.map_some']
      rw [hjoin dir "" h1 hlast]
      unfold pathWithExtension
      have hdata : (dir ++ "/" ++ "").toList = dir.toList ++ ['/'] := by
        show (dir ++ "/" ++ "").data = dir.data ++ ['/']
        simp [String.data_append]
      rw [hdata, fileNameSplit_dir_slash dir.toList h2 h3 (string_toList_ne_nil dir h1)]
      show some (String.mk [] ++ String.mk (rustFileStem dir.toList) ++ "." ++ "pcapng") =
        some (dir ++ ".pcapng")
      rw [rustFileStem_no_dot dir.toList h3, hdotcat]
      rfl
    · unfold monitorCaptureOutputPath
      simp only [Option.map_some']
      rw [hjoin dir "." h1 hlast]
      unfold pathWithExtension
      have hdata : (dir ++ "/" ++ ".").toList = dir.toList ++ ['/', '.'] := by
        show (dir ++ "/" ++ ".").data = dir.data ++ ['/', '.']
        simp [String.data_append]
      rw [hdata, fileNameSplit_dir_slash_dot dir.toList h2 h3 (string_toList_ne_nil dir h1)]
      show some (String.mk [] ++ String.mk (rustFileStem dir.toList) ++ "." ++ "pcapng") =
        some (dir ++ ".pcapng")
      rw [rustFileStem_no_dot dir.toList h3, hdotcat]
      rfl
  · intro dir h1 h2
    unfold monitorCaptureOutputPath
    simp only [Option.map_some']
    rw [hjoin dir ".." h1 h2]
    unfold pathWithExtension
    have hdata : (dir ++ "/" ++ "..").toList = dir.toList ++ ['/', '.', '.'] := by
      show (dir ++ "/" ++ "..").data = dir.data ++ ['/', '.', '.']
      simp [String.data_append]
    rw [hdata, fileNameSplit_dotdot dir.toList]
  · intro existing env secs id c hok
    have hnone : (monitorCaptureConfig none secs id).output_path = none := rfl
    unfold capture at hok
    rw [hnone] at hok
    exact ⟨env.output_bytes, captureRun_buffer [] [] env c hok⟩

/-- Witness for C9 (amended) at a concrete dotted id and directory. -/
theorem c9_capture_path_amended_witness :
    monitorCaptureOutputPath (some "runs") "mon.7" =
      some ("runs" ++ "/" ++ String.mk (rustFileStem "mon.7".toList) ++ ".pcapng") :=
  c9_capture_path_amended.1 "runs" "mon.7" (by decide) (by decide) (by decide)
    (by decide) (by decide) (by decide)

/-! ## C10: buffer-to-reader round trip -/

lemma take_append_drop_min (l : List Nat) (k : Nat) :
    l.take k ++ l.drop (min k l.length) = l := by
  by_cases hk : k ≤ l.length
  · rw [Nat.min_eq_left hk, List.take_append_drop]
  · push_neg at hk
    rw [Nat.min_eq_right (Nat.le_of_lt hk), List.drop_length, List.append_nil]
    exact List.take_of_length_le (Nat.le_of_lt hk)

lemma Cursor.readToEnd_eq_drop :
    ∀ (n : Nat) (data : List Nat) (pos chunk : Nat),
      data.length - pos ≤ n → 0 < chunk →
      Cursor.readToEnd ⟨data, pos⟩ chunk = data.drop pos := by
  intro n
  induction n with
  | zero =>
    intro data pos chunk hle hchunk
    have hdrop : data.drop pos = [] := List.drop_eq_nil_of_le (by omega)
    rw [Cursor.readToEnd]
    simp [Cursor.read, hdrop]
  | succ n ih =>
    intro data pos chunk hle hchunk
    by_cases hend : data.length ≤ pos
    · have hdrop : data.drop pos = [] := List.drop_eq_nil_of_le hend
      rw [Cursor.readToEnd]
      simp [Cursor.read, hdrop]
    · have hlt : pos < data.length := Nat.not_le.mp hend
      have hlen : ((data.drop pos).take chunk).length = min chunk (data.length - pos) := by
        simp [List.length_take, List.length_drop]
      have hminpos : 0 < min chunk (data.length - pos) :=
        Nat.lt_min.mpr ⟨hchunk, by omega⟩
      have hne : (Cursor.read ⟨data, pos⟩ chunk).1 ≠ [] := by
        simp only [Cursor.read]
        intro hc
        have h0 := congrArg List.length hc
        rw [hlen] at h0
        simp at h0
        omega
      rw [Cursor.readToEnd, dif_neg hne]
      simp only [Cursor.read]
      rw [ih data (pos + ((data.drop pos).take chunk).length) chunk
        (by rw [hlen]; have := Nat.min_le_right chunk (data.length - pos); omega) hchunk]
      rw [hlen, ← List.drop_drop]
      have hfin := take_append_drop_min (data.drop pos) chunk
      rw [List.length_drop] at hfin
      exact hfin

/-- C10: converting an in-memory capture buffer to a reader and reading it to
completion (with any positive scratch-buffer size) yields exactly the buffered
bytes, in order — the buffer-to-stream conversion is a lossless round trip. -/
theorem c10_buffer_reader_roundtrip (b : List Nat) (chunk : Nat)
    (hchunk : 0 < chunk) :
    (Capture.Buffer b).reader.readToEnd chunk = b := by
  show Cursor.readToEnd ⟨b, 0⟩ chunk = b
  have h := Cursor.readToEnd_eq_drop b.length b 0 chunk (by omega) hchunk
  simpa using h

/-- Witness for C10 at a concrete buffer and chunk size. -/
theorem c10_buffer_reader_roundtrip_witness :
    (Capture.Buffer [3, 7, 255]).reader.readToEnd 2 = [3, 7, 255] :=
  c10_buffer_reader_roundtrip [3, 7, 255] 2 (by decide)

/-! ## C2: all-or-nothing aggregation in Monitor::wait -/

/-- C2: `Monitor::wait` returns the collected (host id, capture) pairs exactly
when every joined capture task succeeded (and then returns all of them, in
order); it returns an error exactly when some task failed, namely the first
error in the joined order, exposing none of the successful captures. -/
theorem c2_monitor_wait_all_or_nothing
    (results : List (Except String (HostId × Capture))) :
    (∀ l, monitorWait results = .ok l ↔ results = l.map .ok) ∧
    (∀ e, monitorWait results = .error e ↔
      ∃ (pre : List (HostId × Capture)) (post : List (Except String (HostId × Capture))),
        results = pre.map Except.ok ++ .error e :: post) := by
  induction results with
  | nil =>
    constructor
    · intro l
      constructor
      · intro hok
        cases hok
        rfl
      · intro hmap
        cases l with
        | nil => rfl
        | cons x xs => cases hmap
    · intro e
      constructor
      · intro hc; cases hc
      · rintro ⟨pre, post, hsplit⟩
        cases pre <;> cases hsplit
  | cons r rest ih =>
    cases r with
    | error e' =>
      constructor
      · intro l
        constructor
        · intro hc; cases hc
        · intro hmap
          cases l with
          | nil => cases hmap
          | cons x xs => cases hmap
      · intro e
        constructor
        · intro heq
          cases heq
          exact ⟨[], rest, rfl⟩
        · rintro ⟨pre, post, hsplit⟩
          cases pre with
          | nil =>
            cases hsplit
            rfl
          | cons p ps => cases hsplit
    | ok v =>
      constructor
      · intro l
        cases hrest : monitorWait rest with
        | error e =>
          simp only [monitorWait, hrest]
          constructor
          · intro hc; cases hc
          · intro hmap
            cases l with
            | nil => cases hmap
            | cons x xs =>
              obtain ⟨hx, hxs⟩ := List.cons.injEq _ _ _ _ ▸ hmap
              cases hx
              have := (ih.1 xs).mpr hxs
              rw [hrest] at this
              cases this
        | ok acc =>
          simp only [monitorWait, hrest, Except.ok.injEq]
          have hrest' := (ih.1 acc).mp hrest
          constructor
          · rintro rfl
            simp [hrest']
          · intro hmap
            cases l with
            | nil => cases hmap
            | cons x xs =>
              obtain ⟨hx, hxs⟩ := List.cons.injEq _ _ _ _ ▸ hmap
              cases hx
              have hxs' := (ih.1 xs).mpr hxs
              rw [hrest] at hxs'
              cases hxs'
              rfl
      · intro e
        cases hrest : monitorWait rest with
        | error e'' =>
          simp only [monitorWait, hrest, Except.error.injEq]
          constructor
          · rintro rfl
            obtain ⟨pre, post, hsplit⟩ := (ih.2 _).mp hrest
            exact ⟨v :: pre, post, by simp [hsplit]⟩
          · rintro ⟨pre, post, hsplit⟩
            cases pre with
            | nil => cases hsplit
            | cons p ps =>
              simp only [List.map_cons, List.cons_append] at hsplit
              obtain ⟨hp, hrest2⟩ := List.cons.injEq _ _ _ _ ▸ hsplit
              have : monitorWait rest = .error e := (ih.2 e).mpr ⟨ps, post, hrest2⟩
              rw [hrest] at this
              cases this
              rfl
        | ok acc =>
          simp only [monitorWait, hrest]
          constructor
          · intro hc; cases hc
          · rintro ⟨pre, post, hsplit⟩
            cases pre with
            | nil => cases hsplit
            | cons p ps =>
              simp only [List.map_cons, List.cons_append] at hsplit
              obtain ⟨hp, hrest2⟩ := List.cons.injEq _ _ _ _ ▸ hsplit
              have : monitorWait rest = .error e := (ih.2 e).mpr ⟨ps, post, hrest2⟩
              rw [hrest] at this
              cases this

/-! ## C6: command fan-out error policy -/

/-- C6: `run_all` succeeds exactly when every per-host command launched and
was awaited without error, and then returns every (host, output) pair —
non-zero exit statuses included, as data; it fails exactly when some
launch/await errored, with the first such error in the joined order. -/
theorem c6_run_all_launch_errors_only
    (tasks : List (Host × Except String Output)) :
    (∀ l, run_all tasks = .ok l ↔
      tasks = l.map (fun p => (p.1, Except.ok p.2))) ∧
    (∀ e, run_all tasks = .error e ↔
      ∃ (pre : List (Host × Output)) (host : Host)
          (post : List (Host × Except String Output)),
        tasks = pre.map (fun p => (p.1, Except.ok p.2)) ++ (host, .error e) :: post) := by
  induction tasks with
  | nil =>
    constructor
    · intro l
      constructor
      · intro hok
        cases hok
        rfl
      · intro hmap
        cases l with
        | nil => rfl
        | cons x xs => cases hmap
    · intro e
      constructor
      · intro hc; cases hc
      · rintro ⟨pre, host, post, hsplit⟩
        cases pre <;> cases hsplit
  | cons t rest ih =>
    obtain ⟨host, result⟩ := t
    cases result with
    | error e' =>
      constructor
      · intro l
        constructor
        · intro hc; cases hc
        · intro hmap
          cases l with
          | nil => cases hmap
          | cons x xs =>
            simp only [List.map_cons] at hmap
            obtain ⟨hx, -⟩ := List.cons.injEq _ _ _ _ ▸ hmap
            cases hx
      · intro e
        constructor
        · intro heq
          cases heq
          exact ⟨[], host, rest, rfl⟩
        · rintro ⟨pre, host', post, hsplit⟩
          cases pre with
          | nil =>
            cases hsplit
            rfl
          | cons p ps =>
            simp only [List.map_cons, List.cons_append] at hsplit
            obtain ⟨hp, -⟩ := List.cons.injEq _ _ _ _ ▸ hsplit
            cases hp
    | ok out =>
      constructor
      · intro l
        cases hrest : run_all rest with
        | error e =>
          simp only [run_all, hrest]
          constructor
          · intro hc; cases hc
          · intro hmap
            cases l with
            | nil => cases hmap
            | cons x xs =>
              simp only [List.map_cons] at hmap
              obtain ⟨hx, hxs⟩ := List.cons.injEq _ _ _ _ ▸ hmap
              have := (ih.1 xs).mpr hxs
              rw [hrest] at this
              cases this
        | ok acc =>
          simp only [run_all, hrest, Except.ok.injEq]
          have hrest' := (ih.1 acc).mp hrest
          constructor
          · rintro rfl
            simp [List.map_cons, ← hrest']
          · intro hmap
            cases l with
            | nil => cases hmap
            | cons x xs =>
              simp only [List.map_cons] at hmap
              obtain ⟨hx, hxs⟩ := List.cons.injEq _ _ _ _ ▸ hmap
              have hxs' := (ih.1 xs).mpr hxs
              rw [hrest] at hxs'
              cases hxs'
              obtain ⟨x1, x2⟩ := x
              simp only [Prod.mk.injEq, Except.ok.injEq] at hx
              obtain ⟨h1, h2⟩ := hx
              simp [h1, h2]
      · intro e
        cases hrest : run_all rest with
        | error e'' =>
          simp only [run_all, hrest, Except.error.injEq]
          constructor
          · rintro rfl
            obtain ⟨pre, host', post, hsplit⟩ := (ih.2 _).mp hrest
            exact ⟨(host, out) :: pre, host', post, by simp [hsplit]⟩
          · rintro ⟨pre, host', post, hsplit⟩
            cases pre with
            | nil => cases hsplit
            | cons p ps =>
              simp only [List.map_cons, List.cons_append] at hsplit
              obtain ⟨hp, hrest2⟩ := List.cons.injEq _ _ _ _ ▸ hsplit
              have : run_all rest = .error e := (ih.2 e).mpr ⟨ps, host', post, hrest2⟩
              rw [hrest] at this
              cases this
              rfl
        | ok acc =>
          simp only [run_all, hrest]
          constructor
          · intro hc; cases hc
          · rintro ⟨pre, host', post, hsplit⟩
            cases pre with
            | nil => cases hsplit
            | cons p ps =>
              simp only [List.map_cons, List.cons_append] at hsplit
              obtain ⟨hp, hrest2⟩ := List.cons.injEq _ _ _ _ ▸ hsplit
              have : run_all rest = .error e := (ih.2 e).mpr ⟨ps, host', post, hrest2⟩
              rw [hrest] at this
              cases this

end WifiExp
